import Mathlib

set_option maxRecDepth 8000

/-! Shallow embedding of `src/main.py`: the `CSVFile` class builds a sparse
line-offset index in one pass over the stream and serves line lookups by
seeking to the nearest indexed chunk boundary and scanning forward.

Streams are modelled as an immutable character content together with an
explicit read position (`ByteStream`). Python integers are `Int`;
`int(a / b)` for ints is truncation toward zero, which is `Int.tdiv`, and
`a % b` for a positive modulus is `Int.emod`. Python dicts are association
lists with insertion-order semantics (assignment overwrites in place or
appends). The source fixes the chunk size to the module constant
`CHUNK_SIZE = 1000`; the constructor here takes the chunk size as a
parameter (the spec treats it as a construction parameter, default 1000),
so that instances with small chunk sizes can be examined as well. -/

def SEPARATOR : Char := ','

def CHUNK_SIZE : Int := 1000

/-- Whitespace stripped by Python `str.strip()`. -/
def isPySpace (c : Char) : Bool :=
  c = ' ' || c = '\t' || c = '\n' || c = '\r' || c = '\x0b' || c = '\x0c'

/-- Python `str.strip()`: drop whitespace from both ends. -/
def pyStrip (l : List Char) : List Char :=
  ((l.dropWhile isPySpace).reverse.dropWhile isPySpace).reverse

/-- Python `str.split(sep)` for a one-character separator: splitting the
empty string yields `[""]`, and `n` separators yield `n + 1` fields. -/
def splitSep : List Char → List (List Char)
  | [] => [[]]
  | c :: cs =>
    if c = SEPARATOR then [] :: splitSep cs
    else
      match splitSep cs with
      | [] => [[c]]
      | p :: ps => (c :: p) :: ps

/-- Python `d[k] = v` on a dict: overwrite the existing entry in place, or
append a new one. -/
def insertAssoc {α β : Type} [DecidableEq α] : List (α × β) → α → β → List (α × β)
  | [], k, v => [(k, v)]
  | (k', v') :: t, k, v =>
    if k' = k then (k, v) :: t else (k', v') :: insertAssoc t k v

/-- Python `d[k]` lookup: `none` models a `KeyError`. -/
def lookupAssoc {α β : Type} [DecidableEq α] : List (α × β) → α → Option β
  | [], _ => none
  | (k', v') :: t, k => if k' = k then some v' else lookupAssoc t k

/-- A parsed record: Python dict from field name to field value. -/
abbrev Dict := List (List Char × List Char)

/-- Python `dict(pairs)`: left-to-right insertion, later duplicates
overwrite earlier values. -/
def pyDict (ps : List (List Char × List Char)) : Dict :=
  ps.foldl (fun d p => insertAssoc d p.1 p.2) []

/-- `get_dictionary` from `src/main.py`: split header and line on the
separator, strip each field, and zip the two field lists positionally into
a dict. -/
def get_dictionary (header line : List Char) : Dict :=
  pyDict (((splitSep header).map pyStrip).zip ((splitSep line).map pyStrip))

/-- A seekable character stream: immutable content plus a read position. -/
structure ByteStream where
  content : List Char
  pos : Nat

/-- Characters from the read position to the end of input. -/
def ByteStream.remaining (s : ByteStream) : List Char := s.content.drop s.pos

/-- Length of the next line: up to and including the first newline, or to
the end of input when no newline remains. -/
def lineLen : List Char → Nat
  | [] => 0
  | c :: cs => if c = '\n' then 1 else lineLen cs + 1

/-- Python `file.readline()`: the next line (with its trailing newline when
present; `[]` at end of input) together with the advanced stream. -/
def ByteStream.readline (s : ByteStream) : List Char × ByteStream :=
  ((s.remaining).take (lineLen s.remaining), ⟨s.content, s.pos + lineLen s.remaining⟩)

/-- Python `file.seek(p)`. -/
def ByteStream.seek (s : ByteStream) (p : Nat) : ByteStream := ⟨s.content, p⟩

/-- Read and discard `n` lines. -/
def skipLines (s : ByteStream) : Nat → ByteStream
  | 0 => s
  | n + 1 => skipLines s.readline.2 n

/-- `get_line_iterating` from `src/main.py`: read and discard
`line_num - 1` lines, then read and return the next line. -/
def get_line_iterating (file : ByteStream) (line_num : Int) : List Char × ByteStream :=
  (skipLines file (line_num - 1).toNat).readline

/-- Number of nonempty `readline` results from the start of `l`; a final
line without a trailing newline counts. Fuel-driven so that it computes;
`numLines` supplies enough fuel. -/
def numLinesAux : Nat → List Char → Nat
  | 0, _ => 0
  | fuel + 1, l => if l.isEmpty then 0 else numLinesAux fuel (l.drop (lineLen l)) + 1

/-- Total number of lines in a stream content. -/
def numLines (l : List Char) : Nat := numLinesAux (l.length + 1) l

/-- Indexing loop of `CSVFile.__init__` (`while file.readline(): ...`).
After each nonempty line the current position is recorded under the current
line number whenever `(line_num - 1) % chunk_size == 0`. Fuel makes the
recursion structural; `CSVFile.init` supplies enough fuel for the whole
stream. Returns the built offset index and the final line counter. -/
def scanLoop (cs : Int) : Nat → ByteStream → Int → List (Int × Nat) → List (Int × Nat) × Int
  | 0, _, line_num, locs => (locs, line_num)
  | fuel + 1, s, line_num, locs =>
    let r := s.readline
    if r.1.isEmpty then (locs, line_num)
    else
      scanLoop cs fuel r.2 (line_num + 1)
        (if (line_num - 1) % cs = 0 then insertAssoc locs line_num r.2.pos else locs)

/-- State of a `CSVFile` object. -/
structure CSVFile where
  chunk_size : Int
  lines_locations : List (Int × Nat)
  file : ByteStream
  header : List Char
  iter_line : Int
  length : Int

/-- `CSVFile.__init__` on a stream holding `content`. After the indexing
loop the source seeks back to 0 and reads the header, so the loop's final
read position is discarded and the stored stream sits just past the
header. -/
def CSVFile.init (cs : Int) (content : List Char) : CSVFile :=
  let scanned := scanLoop cs (content.length + 1) ⟨content, 0⟩ 1 []
  let r := (ByteStream.seek ⟨content, 0⟩ 0).readline
  { chunk_size := cs
    lines_locations := scanned.1
    file := r.2
    header := r.1
    iter_line := 1
    length := scanned.2 - 2 }

/-- `CSVFile.get_file_length`. -/
def CSVFile.get_file_length (f : CSVFile) : Int := f.length

/-- `CSVFile.get_header`. -/
def CSVFile.get_header (f : CSVFile) : List Char := f.header

/-- `CSVFile.get_line`: seek to the recorded offset of the computed chunk
boundary, discard lines up to the target, read it and parse it against the
header. `none` models the `KeyError` raised when the computed key is
missing from `lines_locations`; the returned state carries the mutated
stream position. `int(line_number / self.chunk_size)` truncates toward
zero (`Int.tdiv`); `line_number % self.chunk_size` is Python modulo
(`Int.emod`, nonnegative for a positive chunk size). -/
def CSVFile.get_line (f : CSVFile) (line_number : Int) : Option (Dict × CSVFile) :=
  let start_of_chunk_line := Int.tdiv line_number f.chunk_size * f.chunk_size + 1
  match lookupAssoc f.lines_locations start_of_chunk_line with
  | none => none
  | some loc =>
    let s := f.file.seek loc
    let offset := line_number % f.chunk_size
    let r := (skipLines s (offset - 1).toNat).readline
    some (get_dictionary f.header r.1, { f with file := r.2 })

/-- Outcome of `CSVFile.__next__`: a yielded record, `StopIteration`, or a
`KeyError` escaping from the inner `get_line` call. Each carries the
mutated object state (the cursor is incremented before any check). -/
inductive NextRes where
  | yield : Dict → CSVFile → NextRes
  | stop : CSVFile → NextRes
  | keyError : CSVFile → NextRes

/-- `CSVFile.__next__`: increment the cursor, yield `get_line(cursor)`
while the cursor is within `length`, raise `StopIteration` otherwise. -/
def CSVFile.next (f : CSVFile) : NextRes :=
  let f1 := { f with iter_line := f.iter_line + 1 }
  if f1.iter_line ≤ f1.length then
    match f1.get_line f1.iter_line with
    | some (d, f2) => .yield d f2
    | none => .keyError f1
  else .stop f1

/-- `CSVFile.get_iter`: set the shared cursor to `line_number - 1` and
return the object itself (`iter(self)` is `self`). -/
def CSVFile.get_iter (f : CSVFile) (line_number : Int) : CSVFile :=
  { f with iter_line := line_number - 1 }

/-- Object state after one `__next__` call, whatever its outcome. -/
def nextSt (f : CSVFile) : CSVFile :=
  match f.next with
  | .yield _ g => g
  | .stop g => g
  | .keyError g => g

/-- Value yielded by one `__next__` call, if any. -/
def nextVal (f : CSVFile) : Option Dict :=
  match f.next with
  | .yield d _ => some d
  | _ => none

/-- Whether a `__next__` outcome is a clean `StopIteration`. -/
def NextRes.isStop : NextRes → Bool
  | .stop _ => true
  | _ => false

/-- Records yielded by repeatedly calling `__next__`, up to `fuel` steps;
iteration ends at `StopIteration` or `KeyError`. -/
def collectIter : Nat → CSVFile → List Dict
  | 0, _ => []
  | fuel + 1, f =>
    match f.next with
    | .yield d g => d :: collectIter fuel g
    | _ => []

/-- Integers from `a` to `b` inclusive, in increasing order. -/
def intList (a b : Int) : List Int :=
  (List.range (b + 1 - a).toNat).map (fun i : Nat => a + (i : Int))

/-- The parsed record `get_line` returns for a line number, defaulting to
the empty dict when `get_line` raises. -/
def dictAt (f : CSVFile) (n : Int) : Dict := ((f.get_line n).map Prod.fst).getD []

/-- Value component of `get_line` as a function of the fields it actually
reads: the chunk size, the offset index, the stream content and the
header. Used to state that the result is insensitive to the read position. -/
def getLineVal (cs : Int) (locs : List (Int × Nat)) (content : List Char)
    (hdr : List Char) (n : Int) : Option Dict :=
  match lookupAssoc locs (Int.tdiv n cs * cs + 1) with
  | none => none
  | some loc =>
    some (get_dictionary hdr ((skipLines ⟨content, loc⟩ (n % cs - 1).toNat).readline).1)

/-- An operation a caller can perform on a constructed `CSVFile` between
two lookups. `step` is one `__next__` call. -/
inductive Op where
  | getLine : Int → Op
  | getIter : Int → Op
  | step : Op

/-- State after performing one operation (outputs discarded; a `KeyError`
from `get_line` leaves the state unchanged, since it is raised before the
seek). -/
def applyOp (f : CSVFile) : Op → CSVFile
  | .getLine n =>
    match f.get_line n with
    | some (_, g) => g
    | none => f
  | .getIter n => f.get_iter n
  | .step => nextSt f

/-- State after a sequence of operations. -/
def applyOps (f : CSVFile) (ops : List Op) : CSVFile := ops.foldl applyOp f

/-- The fields of a `CSVFile` that `get_line`'s value depends on: chunk
size, offset index, stream content, header, and the record count. All are
fixed at construction; only the read position and the cursor mutate. -/
def CSVFile.core (f : CSVFile) : Int × List (Int × Nat) × List Char × List Char × Int :=
  (f.chunk_size, f.lines_locations, f.file.content, f.header, f.length)

/-- Expected keys recorded by the indexing loop for `cnt` lines starting at
line number `ln`: those line numbers `j` with `(j - 1) % c = 0`. -/
def chunkKeys (c : Int) : Int → Nat → List Int
  | _, 0 => []
  | ln, cnt + 1 =>
    (if (ln - 1) % c = 0 then [ln] else []) ++ chunkKeys c (ln + 1) cnt

/-- Example stream from the repository's demo, simplified to single-column
records: a header line `h` followed by five records `1` … `5`. -/
def exContent : List Char := ['h', '\n', '1', '\n', '2', '\n', '3', '\n', '4', '\n', '5', '\n']

/-- Example stream with chunk-size-2 indexing in mind: header `h` and four
records `a`, `b`, `c`, `d`. -/
def exB : List Char := ['h', '\n', 'a', '\n', 'b', '\n', 'c', '\n', 'd', '\n']

theorem lineLen_pos {l : List Char} (h : l ≠ []) : 1 ≤ lineLen l := by
  cases l with
  | nil => exact absurd rfl h
  | cons c cs => unfold lineLen; split <;> omega

theorem readline_content (s : ByteStream) : (s.readline).2.content = s.content := rfl

theorem readline_fst_empty_iff (s : ByteStream) :
    (s.readline).1 = [] ↔ s.remaining = [] := by
  show s.remaining.take (lineLen s.remaining) = [] ↔ s.remaining = []
  cases hr : s.remaining with
  | nil => simp
  | cons c cs =>
    have hl : 1 ≤ lineLen (c :: cs) := lineLen_pos (by simp)
    constructor
    · intro h
      exfalso
      rcases List.take_eq_nil_iff.mp h with h0 | h0
      · omega
      · cases h0
    · intro h
      cases h

theorem remaining_readline (s : ByteStream) :
    (s.readline).2.remaining = s.remaining.drop (lineLen s.remaining) := by
  unfold ByteStream.readline ByteStream.remaining
  simp [List.drop_drop]

theorem skipLines_content (s : ByteStream) (n : Nat) :
    (skipLines s n).content = s.content := by
  induction n generalizing s with
  | zero => rfl
  | succ n ih => rw [skipLines, ih, readline_content]

theorem numLinesAux_congr :
    ∀ (f1 f2 : Nat) (l : List Char), l.length < f1 → l.length < f2 →
      numLinesAux f1 l = numLinesAux f2 l := by
  intro f1
  induction f1 with
  | zero => intro f2 l h1 _; omega
  | succ f1 ih =>
    intro f2 l h1 h2
    cases f2 with
    | zero => omega
    | succ f2 =>
      rw [numLinesAux, numLinesAux]
      by_cases he : l.isEmpty
      · rw [if_pos he, if_pos he]
      · rw [if_neg he, if_neg he]
        have hne : l ≠ [] := by
          intro h; rw [h] at he; exact he rfl
        have hlen : (l.drop (lineLen l)).length = l.length - lineLen l :=
          List.length_drop ..
        have hpos := lineLen_pos hne
        have hlp : 0 < l.length := List.length_pos.mpr hne
        rw [ih f2 (l.drop (lineLen l)) (by omega) (by omega)]

theorem numLines_nil : numLines [] = 0 := rfl

theorem numLines_pos {l : List Char} (h : l ≠ []) : 1 ≤ numLines l := by
  unfold numLines numLinesAux
  rw [if_neg (by simpa [List.isEmpty_iff] using h)]
  omega

theorem numLines_step {l : List Char} (h : l ≠ []) :
    numLines l = numLines (l.drop (lineLen l)) + 1 := by
  have hlen : (l.drop (lineLen l)).length = l.length - lineLen l := List.length_drop ..
  have hpos := lineLen_pos h
  have hlp : 0 < l.length := List.length_pos.mpr h
  unfold numLines
  conv_lhs => rw [numLinesAux]
  rw [if_neg (by simpa [List.isEmpty_iff] using h)]
  rw [numLinesAux_congr l.length ((l.drop (lineLen l)).length + 1) (l.drop (lineLen l))
    (by omega) (by omega)]

theorem insertAssoc_eq_append {α β : Type} [DecidableEq α]
    (l : List (α × β)) (k : α) (v : β) (h : k ∉ l.map Prod.fst) :
    insertAssoc l k v = l ++ [(k, v)] := by
  induction l with
  | nil => rfl
  | cons p t ih =>
    simp only [List.map_cons, List.mem_cons] at h
    push_neg at h
    rw [insertAssoc, if_neg (by exact fun hk => h.1 hk.symm), ih h.2]
    rfl

theorem lookupAssoc_append_right {α β : Type} [DecidableEq α]
    (l m : List (α × β)) (k : α) (h : k ∉ l.map Prod.fst) :
    lookupAssoc (l ++ m) k = lookupAssoc m k := by
  induction l with
  | nil => rfl
  | cons p t ih =>
    simp only [List.map_cons, List.mem_cons] at h
    push_neg at h
    rw [List.cons_append, lookupAssoc, if_neg (by exact fun hk => h.1 hk.symm)]
    exact ih h.2

theorem lookupAssoc_isSome_of_mem {α β : Type} [DecidableEq α]
    (l : List (α × β)) (k : α) (h : k ∈ l.map Prod.fst) :
    (lookupAssoc l k).isSome := by
  induction l with
  | nil => simp at h
  | cons p t ih =>
    rw [lookupAssoc]
    by_cases hk : p.1 = k
    · rw [if_pos hk]; rfl
    · rw [if_neg hk]
      simp only [List.map_cons, List.mem_cons] at h
      exact ih (h.resolve_left (by exact fun he => hk he.symm))


theorem lookupAssoc_insert_ne {α β : Type} [DecidableEq α] :
    ∀ (l : List (α × β)) (k' : α) (v : β) (k : α), k ≠ k' →
      lookupAssoc (insertAssoc l k' v) k = lookupAssoc l k := by
  intro l
  induction l with
  | nil =>
    intro k' v k h
    show lookupAssoc [(k', v)] k = none
    rw [lookupAssoc, if_neg (fun he => h he.symm)]
    rfl
  | cons p t ih =>
    intro k' v k h
    obtain ⟨pk, pv⟩ := p
    rw [insertAssoc]
    by_cases hp : pk = k'
    · rw [if_pos hp, lookupAssoc, lookupAssoc,
        if_neg (fun he : pk = k => h (he ▸ hp ▸ rfl)),
        if_neg (fun he : k' = k => h he.symm)]
    · rw [if_neg hp, lookupAssoc, lookupAssoc]
      by_cases hk : pk = k
      · rw [if_pos hk, if_pos hk]
      · rw [if_neg hk, if_neg hk]
        exact ih k' v k h

theorem scanLoop_count (c : Int) :
    ∀ (fuel : Nat) (s : ByteStream) (ln : Int) (locs : List (Int × Nat)),
      s.remaining.length < fuel →
      (scanLoop c fuel s ln locs).2 = ln + (numLines s.remaining : Int) := by
  intro fuel
  induction fuel with
  | zero => intro s ln locs h; exact absurd h (by omega)
  | succ fuel ih =>
    intro s ln locs h
    rw [scanLoop]
    by_cases he : (s.readline).1.isEmpty
    · rw [if_pos he]
      have h0 : s.remaining = [] := (readline_fst_empty_iff s).mp (List.isEmpty_iff.mp he)
      rw [h0, numLines_nil]
      show ln = ln + ((0 : Nat) : Int)
      omega
    · rw [if_neg he]
      have hne : s.remaining ≠ [] := fun h0 =>
        he (List.isEmpty_iff.mpr ((readline_fst_empty_iff s).mpr h0))
      have hrem := remaining_readline s
      have h1 : ((s.remaining).drop (lineLen s.remaining)).length
          = s.remaining.length - lineLen s.remaining := List.length_drop ..
      have h2 := lineLen_pos hne
      have h3 : 0 < s.remaining.length := List.length_pos.mpr hne
      have hlen : (s.readline).2.remaining.length < fuel := by rw [hrem]; omega
      rw [ih _ _ _ hlen, hrem, numLines_step hne]
      push_cast
      ring

theorem scanLoop_keys (c : Int) :
    ∀ (fuel : Nat) (s : ByteStream) (ln : Int) (locs : List (Int × Nat)),
      s.remaining.length < fuel →
      (∀ p ∈ locs, p.1 < ln) →
      (scanLoop c fuel s ln locs).1.map Prod.fst
        = locs.map Prod.fst ++ chunkKeys c ln (numLines s.remaining) := by
  intro fuel
  induction fuel with
  | zero => intro s ln locs h _; exact absurd h (by omega)
  | succ fuel ih =>
    intro s ln locs h hlt
    rw [scanLoop]
    by_cases he : (s.readline).1.isEmpty
    · rw [if_pos he]
      have h0 : s.remaining = [] := (readline_fst_empty_iff s).mp (List.isEmpty_iff.mp he)
      rw [h0, numLines_nil, chunkKeys]
      simp
    · rw [if_neg he]
      have hne : s.remaining ≠ [] := fun h0 =>
        he (List.isEmpty_iff.mpr ((readline_fst_empty_iff s).mpr h0))
      have hrem := remaining_readline s
      have h1 : ((s.remaining).drop (lineLen s.remaining)).length
          = s.remaining.length - lineLen s.remaining := List.length_drop ..
      have h2 := lineLen_pos hne
      have h3 : 0 < s.remaining.length := List.length_pos.mpr hne
      have hlen : (s.readline).2.remaining.length < fuel := by rw [hrem]; omega
      have hstep : numLines s.remaining = numLines ((s.readline).2.remaining) + 1 := by
        rw [hrem]; exact numLines_step hne
      rw [hstep, chunkKeys]
      by_cases hc : (ln - 1) % c = 0
      · rw [if_pos hc, if_pos hc]
        have hnotin : ln ∉ locs.map Prod.fst := by
          intro hmem
          rcases List.mem_map.mp hmem with ⟨p, hp, hpe⟩
          have := hlt p hp
          omega
        rw [insertAssoc_eq_append locs ln _ hnotin]
        rw [ih _ _ _ hlen (by
          intro p hp
          rcases List.mem_append.mp hp with h4 | h4
          · have := hlt p h4; omega
          · rcases List.mem_singleton.mp h4 with rfl; omega)]
        simp [List.map_append, List.append_assoc]
      · rw [if_neg hc, if_neg hc]
        rw [ih _ _ _ hlen (by intro p hp; have := hlt p hp; omega)]
        simp

theorem scanLoop_lookup_lt (c : Int) :
    ∀ (fuel : Nat) (s : ByteStream) (ln : Int) (locs : List (Int × Nat)) (k : Int),
      k < ln →
      lookupAssoc (scanLoop c fuel s ln locs).1 k = lookupAssoc locs k := by
  intro fuel
  induction fuel with
  | zero => intro s ln locs k _; rfl
  | succ fuel ih =>
    intro s ln locs k hk
    rw [scanLoop]
    by_cases he : (s.readline).1.isEmpty
    · rw [if_pos he]
    · rw [if_neg he]
      by_cases hc : (ln - 1) % c = 0
      · rw [if_pos hc, ih _ _ _ _ (by omega), lookupAssoc_insert_ne _ _ _ _ (by omega)]
      · rw [if_neg hc, ih _ _ _ _ (by omega)]

theorem chunkKeys_mem (c : Int) :
    ∀ (cnt : Nat) (ln k : Int),
      k ∈ chunkKeys c ln cnt ↔ ((k - 1) % c = 0 ∧ ln ≤ k ∧ k < ln + cnt) := by
  intro cnt
  induction cnt with
  | zero =>
    intro ln k
    rw [chunkKeys]
    simp only [List.not_mem_nil, false_iff]
    push_cast
    omega
  | succ cnt ih =>
    intro ln k
    rw [chunkKeys, List.mem_append]
    constructor
    · intro h
      rcases h with h | h
      · by_cases hc : (ln - 1) % c = 0
        · rw [if_pos hc] at h
          rcases List.mem_singleton.mp h with rfl
          exact ⟨hc, le_refl _, by push_cast; omega⟩
        · rw [if_neg hc] at h
          cases h
      · rcases (ih (ln + 1) k).mp h with ⟨h1, h2, h3⟩
        exact ⟨h1, by omega, by push_cast at h3 ⊢; omega⟩
    · rintro ⟨h1, h2, h3⟩
      by_cases hk : k = ln
      · subst hk
        rw [if_pos h1]
        exact Or.inl (List.mem_singleton.mpr rfl)
      · exact Or.inr ((ih (ln + 1) k).mpr ⟨h1, by omega, by push_cast at h3 ⊢; omega⟩)

theorem init_length (c : Int) (content : List Char) :
    (CSVFile.init c content).length = (numLines content : Int) - 1 := by
  have hrem : (⟨content, 0⟩ : ByteStream).remaining = content := List.drop_zero content
  show (scanLoop c (content.length + 1) ⟨content, 0⟩ 1 []).2 - 2 = (numLines content : Int) - 1
  rw [scanLoop_count c (content.length + 1) ⟨content, 0⟩ 1 [] (by rw [hrem]; omega), hrem]
  omega

theorem init_keys_mem (c : Int) (content : List Char) (k : Int) :
    k ∈ (CSVFile.init c content).lines_locations.map Prod.fst
      ↔ ((k - 1) % c = 0 ∧ 1 ≤ k ∧ k ≤ (numLines content : Int)) := by
  have hrem : (⟨content, 0⟩ : ByteStream).remaining = content := List.drop_zero content
  show k ∈ (scanLoop c (content.length + 1) ⟨content, 0⟩ 1 []).1.map Prod.fst ↔ _
  rw [scanLoop_keys c (content.length + 1) ⟨content, 0⟩ 1 []
    (by rw [hrem]; omega) (by intro p hp; cases hp), hrem]
  simp only [List.map_nil, List.nil_append]
  rw [chunkKeys_mem]
  constructor
  · rintro ⟨h1, h2, h3⟩
    exact ⟨h1, h2, by omega⟩
  · rintro ⟨h1, h2, h3⟩
    exact ⟨h1, h2, by omega⟩

theorem init_lookup_one (c : Int) (content : List Char) (h : content ≠ []) :
    lookupAssoc (CSVFile.init c content).lines_locations 1 = some (lineLen content) := by
  have hrem : (⟨content, 0⟩ : ByteStream).remaining = content := List.drop_zero content
  show lookupAssoc (scanLoop c (content.length + 1) ⟨content, 0⟩ 1 []).1 1 = _
  rw [scanLoop, if_neg (by
    intro he
    exact h (hrem ▸ (readline_fst_empty_iff _).mp (List.isEmpty_iff.mp he)))]
  rw [if_pos (by norm_num)]
  rw [scanLoop_lookup_lt c _ _ (1 + 1) _ 1 (by omega)]
  show lookupAssoc [(1, ((⟨content, 0⟩ : ByteStream).readline).2.pos)] 1 = _
  rw [lookupAssoc, if_pos rfl]
  show some (0 + lineLen ((⟨content, 0⟩ : ByteStream).remaining)) = _
  rw [hrem, Nat.zero_add]

theorem get_line_val (f : CSVFile) (n : Int) :
    (f.get_line n).map Prod.fst
      = getLineVal f.chunk_size f.lines_locations f.file.content f.header n := by
  unfold CSVFile.get_line getLineVal
  dsimp only
  cases h : lookupAssoc f.lines_locations (Int.tdiv n f.chunk_size * f.chunk_size + 1) with
  | none => rfl
  | some loc => rfl

theorem get_line_some_state (f : CSVFile) (n : Int) (d : Dict) (g : CSVFile)
    (h : f.get_line n = some (d, g)) :
    g.chunk_size = f.chunk_size ∧ g.lines_locations = f.lines_locations
      ∧ g.file.content = f.file.content ∧ g.header = f.header
      ∧ g.iter_line = f.iter_line ∧ g.length = f.length := by
  unfold CSVFile.get_line at h
  dsimp only at h
  cases hl : lookupAssoc f.lines_locations (Int.tdiv n f.chunk_size * f.chunk_size + 1) with
  | none => rw [hl] at h; cases h
  | some loc =>
    rw [hl] at h
    simp only [Option.some.injEq, Prod.mk.injEq] at h
    obtain ⟨-, h2⟩ := h
    subst h2
    refine ⟨rfl, rfl, ?_, rfl, rfl, rfl⟩
    show ((skipLines (f.file.seek loc) _).readline).2.content = f.file.content
    rw [readline_content, skipLines_content]
    rfl

theorem core_fields {f g : CSVFile} (h : g.core = f.core) :
    g.chunk_size = f.chunk_size ∧ g.lines_locations = f.lines_locations
      ∧ g.file.content = f.file.content ∧ g.header = f.header ∧ g.length = f.length := by
  unfold CSVFile.core at h
  simp only [Prod.mk.injEq] at h
  exact ⟨h.1, h.2.1, h.2.2.1, h.2.2.2.1, h.2.2.2.2⟩

theorem get_line_some_core (f : CSVFile) (n : Int) (d : Dict) (g : CSVFile)
    (h : f.get_line n = some (d, g)) : g.core = f.core ∧ g.iter_line = f.iter_line := by
  obtain ⟨h1, h2, h3, h4, h5, h6⟩ := get_line_some_state f n d g h
  refine ⟨?_, h5⟩
  unfold CSVFile.core
  rw [h1, h2, h3, h4, h6]

theorem next_eq_stop (f : CSVFile) (h : ¬ f.iter_line + 1 ≤ f.length) :
    f.next = .stop { f with iter_line := f.iter_line + 1 } := by
  unfold CSVFile.next
  dsimp only
  rw [if_neg h]

theorem next_eq_yield (f : CSVFile) (d : Dict) (g : CSVFile)
    (h : f.iter_line + 1 ≤ f.length)
    (hg : ({ f with iter_line := f.iter_line + 1 } : CSVFile).get_line (f.iter_line + 1)
      = some (d, g)) :
    f.next = .yield d g := by
  unfold CSVFile.next
  dsimp only
  rw [if_pos h, hg]

theorem next_eq_keyError (f : CSVFile)
    (h : f.iter_line + 1 ≤ f.length)
    (hg : ({ f with iter_line := f.iter_line + 1 } : CSVFile).get_line (f.iter_line + 1)
      = none) :
    f.next = .keyError { f with iter_line := f.iter_line + 1 } := by
  unfold CSVFile.next
  dsimp only
  rw [if_pos h, hg]

theorem get_iter_core (f : CSVFile) (n : Int) : (f.get_iter n).core = f.core := rfl

theorem get_iter_iter_line (f : CSVFile) (n : Int) : (f.get_iter n).iter_line = n - 1 := rfl

theorem intList_nil {a b : Int} (h : b < a) : intList a b = [] := by
  unfold intList
  rw [show (b + 1 - a).toNat = 0 by omega]
  rfl

theorem intList_cons {a b : Int} (h : a ≤ b) : intList a b = a :: intList (a + 1) b := by
  unfold intList
  rw [show (b + 1 - a).toNat = (b + 1 - (a + 1)).toNat + 1 by omega, List.range_succ_eq_map,
    List.map_cons, List.map_map]
  congr 1
  · simp
  · apply List.map_congr_left
    intro i _
    simp only [Function.comp_apply]
    push_cast
    ring

theorem init_chunk_size (c : Int) (content : List Char) :
    (CSVFile.init c content).chunk_size = c := rfl

theorem init_get_line_isSome (c : Int) (content : List Char) (n : Int)
    (hc : 1 ≤ c) (hn : 1 ≤ n) (hle : n ≤ (CSVFile.init c content).length) :
    ((CSVFile.init c content).get_line n).isSome := by
  have hlen := init_length c content
  have hL : n + 1 ≤ (numLines content : Int) := by omega
  have hstart0 : 0 ≤ Int.tdiv n c := Int.tdiv_nonneg (by omega) (by omega)
  have htd : Int.tdiv n c = n / c := Int.tdiv_eq_ediv (by omega) (by omega)
  have hmul : Int.tdiv n c * c ≤ n := by
    rw [htd]
    exact Int.ediv_mul_le n (by omega)
  have hmul0 : 0 ≤ Int.tdiv n c * c := mul_nonneg hstart0 (by omega)
  have hkey : (Int.tdiv n c * c + 1) ∈ (CSVFile.init c content).lines_locations.map Prod.fst := by
    rw [init_keys_mem]
    refine ⟨?_, by omega, by omega⟩
    rw [show Int.tdiv n c * c + 1 - 1 = Int.tdiv n c * c by ring]
    exact Int.mul_emod_left ..
  have hsome := lookupAssoc_isSome_of_mem _ _ hkey
  unfold CSVFile.get_line
  dsimp only
  rw [init_chunk_size]
  cases hl : lookupAssoc (CSVFile.init c content).lines_locations (Int.tdiv n c * c + 1) with
  | none => rw [hl] at hsome; cases hsome
  | some loc => rfl

theorem collectIter_eq (f : CSVFile) :
    ∀ (fuel : Nat) (g : CSVFile) (n : Int),
      g.core = f.core → g.iter_line = n - 1 →
      (f.length + 1 - n).toNat ≤ fuel →
      (∀ i : Int, n ≤ i → i ≤ f.length → (f.get_line i).isSome) →
      collectIter fuel g = (intList n f.length).map (dictAt f) := by
  intro fuel
  induction fuel with
  | zero =>
    intro g n _ _ hfuel _
    rw [intList_nil (by omega)]
    rfl
  | succ fuel ih =>
    intro g n hcore hiter hfuel hsome
    obtain ⟨e1, e2, e3, e4, e5⟩ := core_fields hcore
    by_cases hle : n ≤ f.length
    · have hcond : g.iter_line + 1 ≤ g.length := by omega
      have hsome_n := hsome n (le_refl n) hle
      have hsn : ((f.get_line n).map Prod.fst).isSome := by
        cases hfx : f.get_line n with
        | none => rw [hfx] at hsome_n; cases hsome_n
        | some p => rfl
      have hg1core : ({ g with iter_line := g.iter_line + 1 } : CSVFile).core = f.core := by
        rw [← hcore]
        rfl
      have hval : (({ g with iter_line := g.iter_line + 1 } : CSVFile).get_line
          (g.iter_line + 1)).map Prod.fst = (f.get_line n).map Prod.fst := by
        rw [get_line_val, get_line_val]
        obtain ⟨k1, k2, k3, k4, _⟩ := core_fields hg1core
        rw [k1, k2, k3, k4, show g.iter_line + 1 = n by omega]
      cases hgl : ({ g with iter_line := g.iter_line + 1 } : CSVFile).get_line
          (g.iter_line + 1) with
      | none =>
        rw [hgl] at hval
        rw [← hval] at hsn
        cases hsn
      | some p =>
        obtain ⟨d, g2⟩ := p
        have hnext : g.next = .yield d g2 := next_eq_yield g d g2 hcond hgl
        rw [collectIter, hnext]
        dsimp only
        have hd : d = dictAt f n := by
          rw [hgl] at hval
          unfold dictAt
          rw [← hval]
          rfl
        obtain ⟨hg2core, hg2iter⟩ := get_line_some_core _ _ d g2 hgl
        rw [ih g2 (n + 1) (by rw [hg2core]; exact hg1core)
          (by rw [hg2iter]; show g.iter_line + 1 = n + 1 - 1; omega)
          (by omega)
          (fun i hi1 hi2 => hsome i (by omega) hi2)]
        rw [hd, intList_cons hle, List.map_cons]
    · have hnext : g.next = .stop { g with iter_line := g.iter_line + 1 } :=
        next_eq_stop g (by omega)
      rw [collectIter, hnext, intList_nil (by omega)]
      rfl

theorem nextSt_core (g : CSVFile) : (nextSt g).core = g.core := by
  unfold nextSt
  by_cases h : g.iter_line + 1 ≤ g.length
  · cases hgl : ({ g with iter_line := g.iter_line + 1 } : CSVFile).get_line
        (g.iter_line + 1) with
    | none => rw [next_eq_keyError g h hgl]; rfl
    | some p =>
      obtain ⟨d, g2⟩ := p
      rw [next_eq_yield g d g2 h hgl]
      exact (get_line_some_core _ _ d g2 hgl).1
  · rw [next_eq_stop g h]; rfl

theorem nextVal_eq_get_line_val (g : CSVFile) (h : g.iter_line + 1 ≤ g.length) :
    nextVal g = getLineVal g.chunk_size g.lines_locations g.file.content g.header
      (g.iter_line + 1) := by
  unfold nextVal
  have hv := get_line_val ({ g with iter_line := g.iter_line + 1 } : CSVFile)
    (g.iter_line + 1)
  cases hgl : ({ g with iter_line := g.iter_line + 1 } : CSVFile).get_line
      (g.iter_line + 1) with
  | none =>
    rw [next_eq_keyError g h hgl]
    rw [hgl] at hv
    dsimp only at hv
    exact hv
  | some p =>
    obtain ⟨d, g2⟩ := p
    rw [next_eq_yield g d g2 h hgl]
    rw [hgl] at hv
    dsimp only at hv
    exact hv

theorem nextVal_eq_none (g : CSVFile) (h : ¬ g.iter_line + 1 ≤ g.length) :
    nextVal g = none := by
  unfold nextVal
  rw [next_eq_stop g h]

theorem nextVal_congr (g g' : CSVFile) (hcore : g.core = g'.core)
    (hiter : g.iter_line = g'.iter_line) : nextVal g = nextVal g' := by
  obtain ⟨k1, k2, k3, k4, k5⟩ := core_fields hcore
  by_cases h : g.iter_line + 1 ≤ g.length
  · rw [nextVal_eq_get_line_val g h, nextVal_eq_get_line_val g' (by omega),
      k1, k2, k3, k4, hiter]
  · rw [nextVal_eq_none g h, nextVal_eq_none g' (by omega)]

theorem applyOp_core (f : CSVFile) (op : Op) : (applyOp f op).core = f.core := by
  cases op with
  | getLine n =>
    show (match f.get_line n with | some (_, g) => g | none => f).core = f.core
    cases hg : f.get_line n with
    | none => rfl
    | some p =>
      obtain ⟨d, g⟩ := p
      exact (get_line_some_core f n d g hg).1
  | getIter n => rfl
  | step => exact nextSt_core f

theorem applyOps_core (f : CSVFile) (ops : List Op) : (applyOps f ops).core = f.core := by
  induction ops generalizing f with
  | nil => rfl
  | cons op t ih =>
    show (applyOps (applyOp f op) t).core = f.core
    rw [ih (applyOp f op), applyOp_core]

/-- C1: the claim states that `get_line(n)` always returns the same parsed
record as the naive linear scan (`get_line_iterating` past the header,
parsed with `get_dictionary`) — the exact cross-check the source's `main`
asserts. Evaluating the code at a failing input: with chunk size 2 on a
stream with header and four records, `get_line 2` parses the third data
line `c` while the linear reference parses the second data line `b`, and
the two results differ. With the source's fixed chunk size 1000 the same
divergence appears first at `get_line 1000`. -/
theorem C1_get_line_ne_linear_scan :
    dictAt (CSVFile.init 2 exB) 2 = [(['h'], ['c'])]
    ∧ get_dictionary (((ByteStream.mk exB 0).readline).1)
        ((get_line_iterating ((ByteStream.mk exB 0).readline).2 2).1) = [(['h'], ['b'])]
    ∧ dictAt (CSVFile.init 2 exB) 2
        ≠ get_dictionary (((ByteStream.mk exB 0).readline).1)
          ((get_line_iterating ((ByteStream.mk exB 0).readline).2 2).1) := by
  refine ⟨by decide, by decide, by decide⟩

/-- C2: the claim states that `get_line(n)` seeks to the offset stored
under `chunk_start = floor((n-1)/chunk_size)*chunk_size + 1` and discards
`n - chunk_start` lines. Evaluating the code at a failing input: with
chunk size 2 on header plus records `a b c d` (bytes: record 2 spans
offsets 4-6, record 3 spans 6-8), the claim's `chunk_start` for `n = 2` is
1, whose stored offset is 2, after which one line would be discarded and
the read would end at offset 6 having produced record 2. The code instead
computes key 3 (offset 6), discards nothing, ends at offset 8, and returns
record 3 (`c`). -/
theorem C2_chunk_key_off_by_one :
    ((CSVFile.init 2 exB).get_line 2).map (fun p => (p.1, p.2.file.pos))
      = some ([(['h'], ['c'])], 8)
    ∧ lookupAssoc (CSVFile.init 2 exB).lines_locations 1 = some 2
    ∧ lookupAssoc (CSVFile.init 2 exB).lines_locations 3 = some 6 := by
  refine ⟨by decide, by decide, by decide⟩

/-- C3 counterexample: the claim states that `get_line(0)` and
`get_line(record_count + 1)` fail with an OutOfRange error, never
returning a record. On the example stream (five records) both calls
succeed and return a parsed record. -/
theorem C3_counterexample :
    ((CSVFile.init CHUNK_SIZE exContent).get_line 0).isSome = true
    ∧ ((CSVFile.init CHUNK_SIZE exContent).get_line
        ((CSVFile.init CHUNK_SIZE exContent).length + 1)).isSome = true := by
  refine ⟨by decide, by decide⟩

/-- C3 amended: `get_line` performs no range validation and never reports
an OutOfRange error. On any stream with at least one line, `get_line 0`
succeeds and returns the record parsed from the first data line (the line
at the stored stream position, which sits just past the header after
construction). -/
theorem C3_no_range_check (c : Int) (content : List Char) (h : content ≠ []) :
    ((CSVFile.init c content).get_line 0).map Prod.fst
      = some (get_dictionary (CSVFile.init c content).header
          (((CSVFile.init c content).file.readline).1)) := by
  have hfile : (CSVFile.init c content).file = ⟨content, lineLen content⟩ := by
    show (⟨content, 0 + lineLen ((⟨content, 0⟩ : ByteStream).remaining)⟩ : ByteStream) = _
    rw [show (⟨content, 0⟩ : ByteStream).remaining = content from List.drop_zero content,
      Nat.zero_add]
  unfold CSVFile.get_line
  dsimp only
  rw [init_chunk_size, show Int.tdiv 0 c * c + 1 = 1 by rw [Int.zero_tdiv]; ring,
    init_lookup_one c content h]
  dsimp only
  rw [hfile, show ((0 : Int) % c - 1).toNat = 0 by rw [Int.zero_emod]; decide]
  rfl

/-- C3 witness for the amended theorem at the default chunk size on the
example stream. -/
theorem C3_no_range_check_witness :
    ((CSVFile.init CHUNK_SIZE exContent).get_line 0).map Prod.fst
      = some (get_dictionary (CSVFile.init CHUNK_SIZE exContent).header
          (((CSVFile.init CHUNK_SIZE exContent).file.readline).1)) :=
  C3_no_range_check CHUNK_SIZE exContent (by decide)

/-- C4 counterexample: the claim states the offset index contains exactly
the keys `{1, 1+c, 1+2c, ...}` up to the largest such number at most `k`
(the record count). With chunk size 2 on header plus four records the
index also holds key 5, which exceeds the record count 4: the scan indexes
physical lines (header included), so a key one past the last record is
stored whenever `k` is a multiple of the chunk size. -/
theorem C4_counterexample :
    (CSVFile.init 2 exB).length = 4
    ∧ (5 : Int) ∈ (CSVFile.init 2 exB).lines_locations.map Prod.fst
    ∧ ¬ ((5 : Int) ≤ (CSVFile.init 2 exB).length) := by
  refine ⟨by decide, by decide, by decide⟩

/-- C4 amended: for a positive chunk size `c` and a stream with at least a
header, the offset index contains exactly the keys `{1, 1+c, 1+2c, ...}`
up to the largest such number at most `k + 1` (the total line count,
header included) — one step further than the claim's bound `k` — and the
offset stored under key 1 is the byte offset immediately after the header
line. -/
theorem C4_index_keys (c : Int) (content : List Char) (k : Int)
    (hc : 1 ≤ c) (h : content ≠ []) :
    (k ∈ (CSVFile.init c content).lines_locations.map Prod.fst
      ↔ ((∃ i : Nat, k = 1 + c * i) ∧ k ≤ (numLines content : Int)))
    ∧ lookupAssoc (CSVFile.init c content).lines_locations 1 = some (lineLen content) := by
  refine ⟨?_, init_lookup_one c content h⟩
  rw [init_keys_mem]
  constructor
  · rintro ⟨h1, h2, h3⟩
    refine ⟨?_, h3⟩
    obtain ⟨j, hj⟩ := Int.dvd_of_emod_eq_zero h1
    have hj0 : 0 ≤ j := by
      by_contra hneg
      push_neg at hneg
      have : c * j < 0 := mul_neg_of_pos_of_neg (by omega) hneg
      omega
    exact ⟨j.toNat, by rw [Int.toNat_of_nonneg hj0]; omega⟩
  · rintro ⟨⟨i, hi⟩, h3⟩
    have hi0 : (0 : Int) ≤ (i : Int) := by omega
    have hci : 0 ≤ c * (i : Int) := mul_nonneg (by omega) hi0
    refine ⟨?_, by omega, h3⟩
    rw [hi, show 1 + c * (i : Int) - 1 = c * i by ring]
    exact Int.mul_emod_right ..

/-- C4 witness for the amended theorem: chunk size 2 on header plus four
records, checked at key 3. -/
theorem C4_index_keys_witness :
    ((3 : Int) ∈ (CSVFile.init 2 exB).lines_locations.map Prod.fst
      ↔ ((∃ i : Nat, (3 : Int) = 1 + 2 * i) ∧ (3 : Int) ≤ (numLines exB : Int)))
    ∧ lookupAssoc (CSVFile.init 2 exB).lines_locations 1 = some (lineLen exB) :=
  C4_index_keys 2 exB 3 (by decide) (by decide)

/-- C5 counterexample: the claim states `record_count >= 0` for every
input stream and that an empty stream yields `record_count = 0`. The code
sets `length = line_num - 2` with `line_num` still 1 on an empty stream,
so the record count is -1. -/
theorem C5_counterexample :
    (CSVFile.init CHUNK_SIZE []).length = -1
    ∧ ¬ (0 ≤ (CSVFile.init CHUNK_SIZE []).length) := by
  refine ⟨by decide, by decide⟩

/-- C5 amended: after construction, `length` equals the total number of
lines in the stream minus one; the count is nonnegative exactly when the
stream has at least one line, and an empty stream yields -1, not 0. -/
theorem C5_record_count (c : Int) (content : List Char) :
    (CSVFile.init c content).length = (numLines content : Int) - 1 :=
  init_length c content

/-- C6: for every constructed instance with a positive chunk size and
every starting record `n >= 1`, iterating after `get_iter n` yields
exactly the records `get_line i` for `i` from `n` through the record
count, in increasing order; `n = 1` yields every record. (On a stream with
a header the number yielded equals the record count; an empty stream has
record count -1 and yields nothing, see C5.) -/
theorem C6_iterate_from (c : Int) (content : List Char) (n : Int)
    (hc : 1 ≤ c) (hn : 1 ≤ n) :
    collectIter ((CSVFile.init c content).length + 1 - n).toNat
        ((CSVFile.init c content).get_iter n)
      = (intList n (CSVFile.init c content).length).map (dictAt (CSVFile.init c content)) :=
  collectIter_eq (CSVFile.init c content) _ _ n (get_iter_core _ n) (get_iter_iter_line _ n)
    (le_refl _) (fun i hi1 hi2 => init_get_line_isSome c content i hc (by omega) hi2)

/-- C6 witness: iterating from record 1 on the example stream at the
default chunk size. -/
theorem C6_iterate_from_witness :
    collectIter ((CSVFile.init CHUNK_SIZE exContent).length + 1 - 1).toNat
        ((CSVFile.init CHUNK_SIZE exContent).get_iter 1)
      = (intList 1 (CSVFile.init CHUNK_SIZE exContent).length).map
          (dictAt (CSVFile.init CHUNK_SIZE exContent)) :=
  C6_iterate_from CHUNK_SIZE exContent 1 (by decide) (by decide)

/-- C7 counterexample: the claim states that for a starting position
outside `[1, record_count + 1]` the sequence fails with an OutOfRange
error at the first advance. On the example stream (record count 5),
`get_iter 8` stops cleanly at the first advance, and `get_iter 0` yields
the first record — neither fails. -/
theorem C7_counterexample :
    ((CSVFile.init CHUNK_SIZE exContent).get_iter 8).next.isStop = true
    ∧ nextVal ((CSVFile.init CHUNK_SIZE exContent).get_iter 0)
        = some [(['h'], ['1'])] := by
  refine ⟨by decide, by decide⟩

/-- C7 amended: `get_iter (record_count + 1)` — and in fact any larger
start — yields an immediately-exhausted sequence with a clean
StopIteration and no error, while a start `m <= 0` (within one chunk of
zero, so that the unchecked chunk-key computation still finds key 1) does
not fail either: its first advance yields a record. No OutOfRange error
exists anywhere in the code. -/
theorem C7_out_of_range_starts (c : Int) (content : List Char) (n m : Int)
    (hn : (CSVFile.init c content).length + 1 ≤ n)
    (hne : content ≠ []) (hm1 : -c < m) (hm2 : m ≤ 0) :
    ((CSVFile.init c content).get_iter n).next.isStop = true
    ∧ (nextVal ((CSVFile.init c content).get_iter m)).isSome = true := by
  constructor
  · have hstop := next_eq_stop ((CSVFile.init c content).get_iter n) (by
      show ¬ ((CSVFile.init c content).get_iter n).iter_line + 1
        ≤ ((CSVFile.init c content).get_iter n).length
      rw [get_iter_iter_line]
      show ¬ n - 1 + 1 ≤ (CSVFile.init c content).length
      omega)
    rw [hstop]
    rfl
  · have hlen0 : 0 ≤ (CSVFile.init c content).length := by
      have h1 := init_length c content
      have h2 := numLines_pos hne
      omega
    have hcond : ((CSVFile.init c content).get_iter m).iter_line + 1
        ≤ ((CSVFile.init c content).get_iter m).length := by
      rw [get_iter_iter_line]
      show m - 1 + 1 ≤ (CSVFile.init c content).length
      omega
    have htd0 : Int.tdiv m c = 0 := by
      rw [show m = -(-m) by ring, Int.neg_tdiv,
        Int.tdiv_eq_zero_of_lt (by omega) (by omega)]
      simp
    rw [nextVal_eq_get_line_val _ hcond]
    show (getLineVal c (CSVFile.init c content).lines_locations
        (CSVFile.init c content).file.content (CSVFile.init c content).header
        (m - 1 + 1)).isSome = true
    rw [show m - 1 + 1 = m by ring]
    unfold getLineVal
    rw [show Int.tdiv m c * c + 1 = 1 by rw [htd0]; ring,
      init_lookup_one c content hne]
    rfl

/-- C7 witness for the amended theorem: starts 7 (past the end) and 0
(below the range) on the example stream. -/
theorem C7_out_of_range_starts_witness :
    ((CSVFile.init CHUNK_SIZE exContent).get_iter 7).next.isStop = true
    ∧ (nextVal ((CSVFile.init CHUNK_SIZE exContent).get_iter 0)).isSome = true :=
  C7_out_of_range_starts CHUNK_SIZE exContent 7 0 (by decide) (by decide) (by decide)
    (by decide)

theorem zip_take_min {α β : Type} (a : List α) (b : List β) :
    (a.take (min a.length b.length)).zip (b.take (min a.length b.length)) = a.zip b := by
  rw [List.zip_eq_zipWith, List.zip_eq_zipWith, ← List.take_zipWith]
  apply List.take_of_length_le
  rw [List.length_zipWith]

/-- C8: `get_dictionary` splits header and record on the separator, strips
each field, and pairs fields positionally; the dict it builds is exactly
the one built from the two field lists truncated to the shorter length, so
unmatched trailing header or value fields are silently dropped, and the
zipped pair list has length `min` of the two field counts. It is a total
function: no mismatch error is ever raised. -/
theorem C8_get_dictionary_truncates (h l : List Char) :
    get_dictionary h l
      = pyDict ((((splitSep h).map pyStrip).take
            (min (splitSep h).length (splitSep l).length)).zip
          (((splitSep l).map pyStrip).take
            (min (splitSep h).length (splitSep l).length)))
    ∧ (((splitSep h).map pyStrip).zip ((splitSep l).map pyStrip)).length
        = min (splitSep h).length (splitSep l).length := by
  constructor
  · unfold get_dictionary
    congr 1
    rw [show min (splitSep h).length (splitSep l).length
        = min ((splitSep h).map pyStrip).length ((splitSep l).map pyStrip).length by
      rw [List.length_map, List.length_map]]
    exact (zip_take_min _ _).symm
  · rw [List.zip_eq_zipWith, List.length_zipWith, List.length_map, List.length_map]

/-- C9 counterexample: the claim states a second `get_iter` call produces
a sequence independent of an earlier one. On the example stream, after
`get_iter 1` and one advance (yielding record 1), the earlier sequence's
own next record is record 2; but calling `get_iter 3` and advancing once
(yielding record 3) moves the shared cursor, and the earlier sequence's
next advance now yields record 4, not record 2. -/
theorem C9_counterexample :
    nextVal (nextSt ((CSVFile.init CHUNK_SIZE exContent).get_iter 1)) = some [(['h'], ['2'])]
    ∧ nextVal (nextSt ((nextSt ((CSVFile.init CHUNK_SIZE exContent).get_iter 1)).get_iter 3))
        = some [(['h'], ['4'])]
    ∧ ([(['h'], ['4'])] : Dict) ≠ [(['h'], ['2'])] := by
  refine ⟨by decide, by decide, by decide⟩

/-- C9 amended: `get_iter` returns the object itself with the single
shared cursor repositioned, so sequences are not independent: after any
earlier sequence history (here `get_iter n` plus one advance), a new
`get_iter m` erases that history — the next value produced is exactly the
one a fresh `get_iter m` would produce, regardless of `n`. -/
theorem C9_shared_cursor (f : CSVFile) (n m : Int) :
    nextVal ((nextSt (f.get_iter n)).get_iter m) = nextVal (f.get_iter m) := by
  apply nextVal_congr
  · rw [get_iter_core, get_iter_core, nextSt_core, get_iter_core]
  · rw [get_iter_iter_line, get_iter_iter_line]

/-- C10: the parsed record returned by `get_line n` does not depend on the
stream's read position or the iteration cursor at call time: after any
sequence of intervening `get_line`, `get_iter` and `__next__` operations,
`get_line n` returns the same value as on the freshly constructed state,
because every call first seeks to the indexed chunk offset and the index,
header, chunk size and stream content are never mutated. -/
theorem C10_get_line_history_independent (f : CSVFile) (ops : List Op) (n : Int) :
    ((applyOps f ops).get_line n).map Prod.fst = (f.get_line n).map Prod.fst := by
  rw [get_line_val, get_line_val]
  obtain ⟨h1, h2, h3, h4, _⟩ := core_fields (applyOps_core f ops)
  rw [h1, h2, h3, h4]
